import Mathlib

/-!
# Verification of the workflow-graph execution engine

Shallow embedding of the `workflow_graph` library (builder `WorkflowGraph`,
executor `CompiledGraph`, models `NodeSpec` / `Branch`) translated from
`src/workflow_graph/executor.ts`, `builder.ts`, `models.ts`, `constants.js`.

Modelling conventions:
* JavaScript runtime values flowing through a workflow are modelled by the
  inductive type `Val` (integers and booleans, the value universe exercised by
  the library's own tests and examples).
* `JSON.stringify` on these values and JavaScript string coercion of property
  keys are modelled by `jsonOfVal` / `jsToString` (decimal rendering for
  integers, `true` / `false` for booleans).
* A node action may be impure in JavaScript (its behaviour can differ between
  retry attempts), so an action is modelled as a function of the 1-based
  attempt number and the input; a throw is an `Except.error` carrying the
  message.  Type predicates (`inputType` / `outputType`) are compared by
  reference identity in the source, modelled as `Option Nat` identity tags.
* JavaScript objects used as ordered string-keyed dictionaries are modelled as
  insertion-ordered association lists.
* Waits (`delay(retryDelay * 1000)`) are recorded in a trace of waited
  millisecond amounts rather than actually sleeping.
-/

namespace WorkflowGraphJs

/-- `constants.js`: reserved sentinel node identifier `__start__`. -/
def START : String := "__start__"

/-- `constants.js`: reserved sentinel node identifier `__end__`. -/
def END : String := "__end__"

/-- Workflow data values (the JavaScript values threaded between nodes). -/
inductive Val where
  | int (i : Int)
  | bool (b : Bool)
deriving DecidableEq, Repr

/-- Decimal digit character (`0`-`9`) for `d < 10`. -/
def digitChar (d : Nat) : Char := Char.ofNat (48 + d)

/-- Decimal rendering of a natural number, accumulator style; `fuel` bounds
the digit count (`fuel = n` always suffices since `n` has at most `n` digits). -/
def natDecGo (fuel : Nat) (n : Nat) (acc : List Char) : List Char :=
  match fuel with
  | 0 => digitChar n :: acc
  | fuel + 1 =>
    if n < 10 then digitChar n :: acc
    else natDecGo fuel (n / 10) (digitChar (n % 10) :: acc)

/-- Decimal rendering of an integer (as JavaScript renders integral numbers). -/
def intDec (i : Int) : String :=
  if i < 0 then ⟨'-' :: natDecGo i.natAbs i.natAbs []⟩
  else ⟨natDecGo i.natAbs i.natAbs []⟩

/-- Model of `JSON.stringify` on workflow values (used for visited-set keys). -/
def jsonOfVal : Val → String
  | Val.int i => intDec i
  | Val.bool b => if b then "true" else "false"

/-- Model of JavaScript string coercion (used for object property keys). -/
def jsToString : Val → String
  | Val.int i => intDec i
  | Val.bool b => if b then "true" else "false"

/-- `executor.ts` line 180: the visited-set key `nodeName + ":" + JSON.stringify(nodeInput)`. -/
def visitKey (nodeName : String) (nodeInput : Val) : String :=
  nodeName ++ ":" ++ jsonOfVal nodeInput

/-- `models.ts`: per-node configuration, with option-name normalisation already
applied by the `NodeSpec` constructor (`retries || retryCount || 0`, etc.).
The action takes the 1-based attempt number to model impure JavaScript
actions whose behaviour differs between retries. -/
structure NodeSpec where
  action : Nat → Val → Except String Val
  retryCount : Nat
  retryDelay : ℚ
  errorHandler : Option (String → Val → Val)
  inputType : Option Nat
  outputType : Option Nat

/-- `models.ts`: a conditional branch: discriminator (`path`), optional
`ends` mapping (stringified discriminator value to target) and optional
unconditional `then` target. -/
structure Branch where
  path : Val → Val
  ends : Option (List (String × String))
  thenNode : Option String

/-- The error taxonomy of `exceptions.js`, as structured error kinds.
`jsTypeError` models the untyped JavaScript `TypeError` raised when the code
dereferences an `undefined` lookup (e.g. running an unregistered node). -/
inductive WGErr where
  | invalidNodeName (name : String)
  | duplicateNode (name : String)
  | invalidEdge (name : String)
  | typeMismatch (src dst : String)
  | unreachableNodes (nodes : List String)
  | executionFailure (node : String) (attempts : Nat) (msg : String)
  | jsTypeError
deriving DecidableEq, Repr

/-- First-match lookup in an insertion-ordered association list (JavaScript
object property access `obj[key]`, `undefined` becoming `none`). -/
def lookupA {β : Type} (k : String) : List (String × β) → Option β
  | [] => none
  | (k', v) :: rest => if k = k' then some v else lookupA k rest

deriving instance DecidableEq for Except

/-- Outcome of one `_executeNode` call: the result (or raised error), the
number of times the action was invoked, and the trace of waited millisecond
amounts (one entry per retry wait `delay(retryDelay * 1000)`). -/
structure NodeOutcome where
  result : Except WGErr Val
  calls : Nat
  delays : List ℚ
deriving DecidableEq, Repr

/-- `executor.ts` lines 264-288: the retry loop of `_executeNode`, entered
with the current failure count `attempts` (0 on first entry).  Each iteration
invokes the action; on failure it increments `attempts`, and once
`attempts > retryCount` either defers to the error handler (its value returned
as a success) or raises `ExecutionError`; otherwise it waits
`retryDelay * 1000` milliseconds and retries with the same input. -/
def executeNodeLoop (spec : NodeSpec) (nodeName : String) (nodeInput : Val)
    (attempts : Nat) : NodeOutcome :=
  match spec.action (attempts + 1) nodeInput with
  | Except.ok v => ⟨Except.ok v, 1, []⟩
  | Except.error err =>
    if h : attempts + 1 > spec.retryCount then
      match spec.errorHandler with
      | some handler => ⟨Except.ok (handler err nodeInput), 1, []⟩
      | none =>
        ⟨Except.error (WGErr.executionFailure nodeName (attempts + 1) err), 1, []⟩
    else
      let rest := executeNodeLoop spec nodeName nodeInput (attempts + 1)
      ⟨rest.result, rest.calls + 1, spec.retryDelay * 1000 :: rest.delays⟩
termination_by spec.retryCount - attempts
decreasing_by
  omega

/-- `executor.ts` lines 252-263: `_executeNode` head — sentinels pass their
input through untouched (no lookup, no retry); real nodes enter the retry
loop with `attempts = 0`. -/
def executeNode (spec : NodeSpec) (nodeName : String) (nodeInput : Val) : NodeOutcome :=
  executeNodeLoop spec nodeName nodeInput 0

/-- Node table: node name to `NodeSpec`, in registration order. -/
abbrev NodeTable := List (String × NodeSpec)

/-- Adjacency table built by the `CompiledGraph` constructor: source to
ordered list of destinations. -/
abbrev AdjTable := List (String × List String)

/-- Branch table: source node to its named branches, in insertion order. -/
abbrev BranchTable := List (String × List (String × Branch))

/-- One step of the constructor's edge-list-to-adjacency conversion:
`this.edges[start]` is created on first use and appended to. -/
def adjInsert (adj : AdjTable) (s d : String) : AdjTable :=
  match adj with
  | [] => [(s, [d])]
  | (k, ds) :: rest => if k = s then (k, ds ++ [d]) :: rest else (k, ds) :: adjInsert rest s d

/-- `executor.ts` lines 34-40: convert the builder's edge list into the
adjacency object, keys in first-occurrence order. -/
def buildAdj (edges : List (String × String)) : AdjTable :=
  edges.foldl (fun adj e => adjInsert adj e.1 e.2) []

/-- `executor.ts`: the compiled, runnable graph.  `edges` is already the
adjacency table; `compiled` is the flag set by `validate()`. -/
structure CompiledGraph where
  nodes : NodeTable
  edges : AdjTable
  branches : BranchTable
  compiled : Bool

/-- `executor.ts` lines 31-43: the `CompiledGraph` constructor. -/
def mkCompiledGraph (nodes : NodeTable) (edges : List (String × String))
    (branches : BranchTable) : CompiledGraph :=
  ⟨nodes, buildAdj edges, branches, false⟩

/-- JavaScript truthiness of `branch.then` (a `string | null` field):
`null` and the empty string are falsy. -/
def thenTruthy : Option String → Bool
  | some t => t ≠ ""
  | none => false

/-- `executor.ts` lines 50-91: `toMermaid`, as the list of emitted lines. -/
def mermaidLines (g : CompiledGraph) : List String :=
  ["```mermaid", "flowchart TD"]
    ++ ["    " ++ START ++ "[\"START\"]", "    " ++ END ++ "[\"END\"]"]
    ++ g.nodes.map (fun p => "    " ++ p.1 ++ "[\"" ++ p.1 ++ "\"]")
    ++ g.edges.flatMap (fun p => p.2.map (fun d => "    " ++ p.1 ++ " --> " ++ d))
    ++ g.branches.flatMap (fun p =>
        p.2.flatMap (fun kb =>
          (match kb.2.thenNode with
            | some t => if t ≠ "" then ["    " ++ p.1 ++ " -.-> " ++ t] else []
            | none => [])
          ++ (match kb.2.ends with
            | some es => es.map (fun ct =>
                let dc := if ct.1 = "true" then "True"
                  else if ct.1 = "false" then "False" else ct.1
                "    " ++ p.1 ++ " -.|" ++ dc ++ "|.-> " ++ ct.2)
            | none => [])))
    ++ ["```"]

/-- `executor.ts` line 90: the rendered Mermaid diagram. -/
def CompiledGraph.toMermaid (g : CompiledGraph) : String :=
  String.intercalate "\n" (mermaidLines g)

/-- `executor.ts` lines 116-141: the successors the validator's BFS pushes for
one dequeued node — destinations of direct edges (except `END`), then for each
branch its truthy `then` target (except `END`) and every `ends` value
(except `END`). -/
def succs (edges : AdjTable) (branches : BranchTable) (n : String) : List String :=
  (match lookupA n edges with
    | some dests => dests.filter (fun d => d ≠ END)
    | none => [])
  ++ (match lookupA n branches with
    | some bd => bd.flatMap (fun kb =>
        (match kb.2.thenNode with
          | some t => if t ≠ "" ∧ t ≠ END then [t] else []
          | none => [])
        ++ (match kb.2.ends with
          | some es => (es.map Prod.snd).filter (fun d => d ≠ END)
          | none => []))
    | none => [])

/-- Every node identifier that can ever be pushed on the validator's BFS
queue: `START` plus every edge destination and branch target of the tables. -/
def bfsUniverse (edges : AdjTable) (branches : BranchTable) : List String :=
  START
    :: (edges.flatMap (fun p => p.2.filter (fun d => d ≠ END))
      ++ branches.flatMap (fun p => p.2.flatMap (fun kb =>
          (match kb.2.thenNode with
            | some t => if t ≠ "" ∧ t ≠ END then [t] else []
            | none => [])
          ++ (match kb.2.ends with
            | some es => (es.map Prod.snd).filter (fun d => d ≠ END)
            | none => []))))

lemma lookupA_mem {β : Type} {k : String} {l : List (String × β)} {v : β}
    (h : lookupA k l = some v) : (k, v) ∈ l := by
  induction l with
  | nil => simp [lookupA] at h
  | cons p rest ih =>
    obtain ⟨k', v'⟩ := p
    by_cases hk : k = k'
    · simp [lookupA, hk] at h
      simp [hk, h]
    · simp [lookupA, hk] at h
      exact List.mem_cons_of_mem _ (ih h)

lemma succs_subset_universe {edges : AdjTable} {branches : BranchTable}
    {n x : String} (h : x ∈ succs edges branches n) :
    x ∈ bfsUniverse edges branches := by
  unfold succs at h
  unfold bfsUniverse
  rcases List.mem_append.1 h with h1 | h2
  · apply List.mem_cons_of_mem
    apply List.mem_append_left
    rcases he : lookupA n edges with _ | dests
    · simp [he] at h1
    · rw [he] at h1
      exact List.mem_flatMap.2 ⟨(n, dests), lookupA_mem he, h1⟩
  · apply List.mem_cons_of_mem
    apply List.mem_append_right
    rcases hb : lookupA n branches with _ | bd
    · simp [hb] at h2
    · rw [hb] at h2
      exact List.mem_flatMap.2 ⟨(n, bd), lookupA_mem hb, h2⟩

/-- `executor.ts` lines 107-142: the validator's breadth-first walk.  Dequeue
a node; if already visited skip it, otherwise mark it visited and enqueue its
successors. -/
def bfsLoop (edges : AdjTable) (branches : BranchTable)
    (visited queue : List String) : List String :=
  match queue with
  | [] => visited
  | n :: rest =>
    if n ∈ visited then
      bfsLoop edges branches visited rest
    else
      bfsLoop edges branches (visited ++ [n]) (rest ++ succs edges branches n)
termination_by
  (((bfsUniverse edges branches ++ queue).toFinset \ visited.toFinset).card,
    queue.length)
decreasing_by
  · apply Prod.Lex.right'
    · apply Finset.card_le_card
      intro x hx
      simp only [Finset.mem_sdiff, List.toFinset_append, Finset.mem_union,
        List.mem_toFinset] at hx ⊢
      exact ⟨hx.1.imp id (fun hr => List.mem_cons_of_mem _ hr), hx.2⟩
    · simp
  · apply Prod.Lex.left
    have hset : (bfsUniverse edges branches ++ (rest ++ succs edges branches n)).toFinset
        \ (visited ++ [n]).toFinset
        = ((bfsUniverse edges branches ++ n :: rest).toFinset \ visited.toFinset).erase n := by
      ext x
      simp only [Finset.mem_sdiff, Finset.mem_erase, List.toFinset_append,
        Finset.mem_union, List.mem_toFinset, List.mem_cons, List.mem_singleton,
        List.not_mem_nil, or_false]
      have hsub := @succs_subset_universe edges branches n x
      tauto
    rw [hset]
    apply Finset.card_erase_lt_of_mem
    simp only [Finset.mem_sdiff, List.toFinset_append, Finset.mem_union,
      List.mem_toFinset, List.mem_cons]
    tauto

/-- The set of nodes the validator's BFS visits, as run by `validate()`
(seed queue `[START]`, empty visited set). -/
def bfsVisited (edges : AdjTable) (branches : BranchTable) : List String :=
  bfsLoop edges branches [] [START]

/-- `executor.ts` lines 98-152: `validate()`.  Sets the `compiled` flag first,
returns immediately on an empty node table, otherwise runs the BFS and throws
`Unreachable nodes detected` naming every registered node the walk missed.
Modelled as (thrown error or success, the mutated graph). -/
def validateRun (g : CompiledGraph) : Except WGErr Unit × CompiledGraph :=
  let g' : CompiledGraph := { g with compiled := true }
  if g'.nodes.isEmpty then (Except.ok (), g')
  else
    let visited := bfsVisited g'.edges g'.branches
    let unreachable := (g'.nodes.map Prod.fst).filter (fun k => decide (k ∉ visited))
    if unreachable.isEmpty then (Except.ok (), g')
    else (Except.error (WGErr.unreachableNodes unreachable), g')

/-- `executor.ts` lines 193-212: successor enqueuing after a node executes.
If the node has a branches entry, each branch contributes its truthy `then`
target and, when the stringified discriminator value is an own property of
`ends`, that target — both paired with the *original* node input; only
otherwise are the direct edges followed, paired with the node's result. -/
def enqueueSuccessors (g : CompiledGraph) (nodeName : String)
    (nodeInput result : Val) : List (String × Val) :=
  match lookupA nodeName g.branches with
  | some bd =>
    bd.flatMap (fun kb =>
      let pathVal := kb.2.path nodeInput
      (match kb.2.thenNode with
        | some t => if t ≠ "" then [(t, nodeInput)] else []
        | none => [])
      ++ (match kb.2.ends with
        | some es =>
          match lookupA (jsToString pathVal) es with
          | some tgt => [(tgt, nodeInput)]
          | none => []
        | none => []))
  | none =>
    match lookupA nodeName g.edges with
    | some dests => dests.map (fun d => (d, result))
    | none => []

/-- One `_executeNode` call as seen from the run loop: sentinels are identity
pass-throughs, an unregistered node raises the JavaScript `TypeError` of
dereferencing `undefined`, and a registered node runs the retry loop.  Also
returns the run log contribution `(nodeName, action invocation count)`. -/
def executeNodeRun (g : CompiledGraph) (nodeName : String) (nodeInput : Val) :
    Except WGErr Val × List (String × Nat) :=
  if nodeName = START ∨ nodeName = END then (Except.ok nodeInput, [])
  else
    match lookupA nodeName g.nodes with
    | none => (Except.error WGErr.jsTypeError, [])
    | some spec =>
      let o := executeNode spec nodeName nodeInput
      (o.result, [(nodeName, o.calls)])

/-- `executor.ts` lines 173-217: the work loop of `executeAsync`.  Dequeue an
entry; `END` returns the accumulator at once; a visited `(node, serialized
input)` key is discarded; otherwise the node executes, the accumulator is
updated (sentinels excepted) and successors are enqueued.  `fuel` bounds the
number of iterations (the JavaScript loop can genuinely diverge); `log`
accumulates `(node, action invocation count)` pairs. -/
def runLoop (g : CompiledGraph) :
    Nat → List (String × Val) → List String → Val → List (String × Nat) →
    Option (Except WGErr Val × List (String × Nat))
  | _, [], _, state, log => some (Except.ok state, log)
  | 0, _ :: _, _, _, _ => none
  | fuel + 1, (nodeName, nodeInput) :: rest, visited, state, log =>
    if nodeName = END then some (Except.ok state, log)
    else
      let key := visitKey nodeName nodeInput
      if key ∈ visited then runLoop g fuel rest visited state log
      else
        match executeNodeRun g nodeName nodeInput with
        | (Except.error e, lg) => some (Except.error e, log ++ lg)
        | (Except.ok result, lg) =>
          let state' := if nodeName ≠ START ∧ nodeName ≠ END then result else state
          runLoop g fuel (rest ++ enqueueSuccessors g nodeName nodeInput result)
            (visited ++ [key]) state' (log ++ lg)

/-- `executor.ts` lines 161-217: `executeAsync` — seed the queue with
`(START, inputData)` and the accumulator with `inputData`, then run the loop. -/
def executeAsync (g : CompiledGraph) (inputData : Val) (fuel : Nat) :
    Option (Except WGErr Val × List (String × Nat)) :=
  runLoop g fuel [(START, inputData)] [] inputData []

/-- `builder.ts`: the mutable builder state (`this.nodes`, `this.edges`,
`this.branches`, `this.entryPoints`, `this.finishPoints`). -/
structure WorkflowGraph where
  nodes : NodeTable
  edges : List (String × String)
  branches : BranchTable
  entryPoints : List String
  finishPoints : List String

/-- `builder.ts` constructor: the empty builder. -/
def emptyWG : WorkflowGraph := ⟨[], [], [], [], []⟩

/-- `builder.ts` lines 33-49: `addNode` — reject sentinel names and duplicate
registrations, otherwise append the spec under the name. -/
def addNode (g : WorkflowGraph) (nodeName : String) (spec : NodeSpec) :
    Except WGErr WorkflowGraph :=
  if nodeName = START ∨ nodeName = END then
    Except.error (WGErr.invalidNodeName nodeName)
  else if (lookupA nodeName g.nodes).isSome then
    Except.error (WGErr.duplicateNode nodeName)
  else
    Except.ok { g with nodes := g.nodes ++ [(nodeName, spec)] }

/-- `builder.ts` lines 57-66: `addEdge` — each endpoint must be a sentinel or
a registered node, else `InvalidEdgeError`; then the edge is appended. -/
def addEdge (g : WorkflowGraph) (fromNode toNode : String) :
    Except WGErr WorkflowGraph :=
  if ¬(fromNode = START ∨ fromNode = END) ∧ (lookupA fromNode g.nodes).isNone then
    Except.error (WGErr.invalidEdge fromNode)
  else if ¬(toNode = START ∨ toNode = END) ∧ (lookupA toNode g.nodes).isNone then
    Except.error (WGErr.invalidEdge toNode)
  else
    Except.ok { g with edges := g.edges ++ [(fromNode, toNode)] }

/-- JavaScript dictionary assignment `dict[key] = value`: overwrite in place
if the key exists, otherwise append. -/
def dictAssign {β : Type} (l : List (String × β)) (k : String) (v : β) :
    List (String × β) :=
  match l with
  | [] => [(k, v)]
  | (k', v') :: rest =>
    if k' = k then (k', v) :: rest else (k', v') :: dictAssign rest k v

/-- `builder.ts` lines 77-85: `addConditionalEdges` — create the node's branch
dictionary on first use and assign the branch under its key.  No endpoint of
the branch is validated.  The key defaults (`branchKey || pathFn.name ||
'branch'`) are modelled by an optional explicit key falling back to
`"branch"`. -/
def addConditionalEdges (g : WorkflowGraph) (fromNode : String) (b : Branch)
    (branchKey : Option String) : WorkflowGraph :=
  let bKey := branchKey.getD "branch"
  let bd := (lookupA fromNode g.branches).getD []
  { g with branches := dictAssign g.branches fromNode (dictAssign bd bKey b) }

/-- `builder.ts` lines 93-102: `setEntryPoint` — the node must exist; records
it and appends a `START → node` edge. -/
def setEntryPoint (g : WorkflowGraph) (nodeName : String) :
    Except WGErr WorkflowGraph :=
  if (lookupA nodeName g.nodes).isNone then
    Except.error (WGErr.invalidNodeName nodeName)
  else
    Except.ok { g with
      entryPoints := if nodeName ∈ g.entryPoints then g.entryPoints
        else g.entryPoints ++ [nodeName],
      edges := g.edges ++ [(START, nodeName)] }

/-- `builder.ts` lines 110-118: `setFinishPoint` — the node must exist;
records it and appends a `node → END` edge. -/
def setFinishPoint (g : WorkflowGraph) (nodeName : String) :
    Except WGErr WorkflowGraph :=
  if (lookupA nodeName g.nodes).isNone then
    Except.error (WGErr.invalidNodeName nodeName)
  else
    Except.ok { g with
      finishPoints := if nodeName ∈ g.finishPoints then g.finishPoints
        else g.finishPoints ++ [nodeName],
      edges := g.edges ++ [(nodeName, END)] }

/-- `builder.ts` lines 127-139: the edge scan of `WorkflowGraph.validate`.
Skip edges touching a sentinel; for the rest, read both specs (an
unregistered endpoint would dereference `undefined`, a JavaScript
`TypeError`); when both endpoints declare type predicates they must be the
identical predicate, else `TypeMismatchError` naming both nodes. -/
def checkEdges (nodes : NodeTable) : List (String × String) → Except WGErr Unit
  | [] => Except.ok ()
  | (s, e) :: rest =>
    if (s = START ∨ s = END) ∨ (e = START ∨ e = END) then checkEdges nodes rest
    else
      match lookupA s nodes, lookupA e nodes with
      | some startSpec, some endSpec =>
        if startSpec.outputType.isSome ∧ endSpec.inputType.isSome then
          if startSpec.outputType ≠ endSpec.inputType then
            Except.error (WGErr.typeMismatch s e)
          else checkEdges nodes rest
        else checkEdges nodes rest
      | _, _ => Except.error WGErr.jsTypeError

/-- `builder.ts` lines 124-142: `WorkflowGraph.validate` (type compatibility
over the edge list; branches are never inspected). -/
def wgValidate (g : WorkflowGraph) : Except WGErr Unit :=
  checkEdges g.nodes g.edges

/-- `builder.ts` lines 149-161: `compile` — builder validation, then
construct the `CompiledGraph` and run its `validate()`. -/
def compileWG (g : WorkflowGraph) : Except WGErr CompiledGraph :=
  match wgValidate g with
  | Except.error e => Except.error e
  | Except.ok _ =>
    let cg := mkCompiledGraph g.nodes g.edges g.branches
    match validateRun cg with
    | (Except.error e, _) => Except.error e
    | (Except.ok _, cg') => Except.ok cg'

/-- One builder API call, for stating invariants over everything the fluent
API can assemble. -/
inductive BuildOp where
  | node (name : String) (spec : NodeSpec)
  | edge (fromNode toNode : String)
  | cond (fromNode : String) (b : Branch) (branchKey : Option String)
  | entry (name : String)
  | finish (name : String)

/-- Apply one builder call. -/
def applyOp (g : WorkflowGraph) : BuildOp → Except WGErr WorkflowGraph
  | BuildOp.node name spec => addNode g name spec
  | BuildOp.edge f t => addEdge g f t
  | BuildOp.cond f b k => Except.ok (addConditionalEdges g f b k)
  | BuildOp.entry n => setEntryPoint g n
  | BuildOp.finish n => setFinishPoint g n

/-- Run a sequence of builder calls from a starting state, stopping at the
first raised error. -/
def buildFrom (g : WorkflowGraph) : List BuildOp → Except WGErr WorkflowGraph
  | [] => Except.ok g
  | op :: ops =>
    match applyOp g op with
    | Except.error e => Except.error e
    | Except.ok g' => buildFrom g' ops

/-- Run a sequence of builder calls on a fresh `WorkflowGraph`. -/
def buildGraph (ops : List BuildOp) : Except WGErr WorkflowGraph :=
  buildFrom emptyWG ops

/-- Reachability from `START` through the validator's successor relation
(every unconditional edge and every branch target). -/
inductive Reaches (edges : AdjTable) (branches : BranchTable) : String → Prop
  | start : Reaches edges branches START
  | step {n m : String} : Reaches edges branches n →
      m ∈ succs edges branches n → Reaches edges branches m

/-- Combined invariant lemma for the validator's BFS loop: the result
contains the visited list and the queue; if the visited list is
successor-closed up to the queue then the result is successor-closed; and if
everything in visited and queue is reachable then so is everything in the
result. -/
theorem bfsLoop_spec (edges : AdjTable) (branches : BranchTable)
    (visited queue : List String)
    (hclosed : ∀ x ∈ visited, ∀ m ∈ succs edges branches x,
      m ∈ visited ∨ m ∈ queue)
    (hvr : ∀ x ∈ visited, Reaches edges branches x)
    (hqr : ∀ x ∈ queue, Reaches edges branches x) :
    (∀ x ∈ visited, x ∈ bfsLoop edges branches visited queue) ∧
    (∀ x ∈ queue, x ∈ bfsLoop edges branches visited queue) ∧
    (∀ x ∈ bfsLoop edges branches visited queue,
      ∀ m ∈ succs edges branches x, m ∈ bfsLoop edges branches visited queue) ∧
    (∀ x ∈ bfsLoop edges branches visited queue, Reaches edges branches x) := by
  induction visited, queue using bfsLoop.induct edges branches with
  | case1 visited =>
    rw [bfsLoop]
    refine ⟨fun x hx => hx, by simp, fun x hx m hm => ?_, hvr⟩
    rcases hclosed x hx m hm with h | h
    · exact h
    · simp at h
  | case2 visited n rest hmem ih =>
    rw [bfsLoop, if_pos hmem]
    have hclosed' : ∀ x ∈ visited, ∀ m ∈ succs edges branches x,
        m ∈ visited ∨ m ∈ rest := by
      intro x hx m hm
      rcases hclosed x hx m hm with h | h
      · exact Or.inl h
      · rcases List.mem_cons.1 h with h | h
        · exact Or.inl (h ▸ hmem)
        · exact Or.inr h
    obtain ⟨ih1, ih2, ih3, ih4⟩ :=
      ih hclosed' hvr (fun x hx => hqr x (List.mem_cons_of_mem _ hx))
    refine ⟨ih1, fun x hx => ?_, ih3, ih4⟩
    rcases List.mem_cons.1 hx with h | h
    · exact ih1 x (h ▸ hmem)
    · exact ih2 x h
  | case3 visited n rest hmem ih =>
    rw [bfsLoop, if_neg hmem]
    have hreach_n : Reaches edges branches n := hqr n (List.mem_cons_self n rest)
    have hclosed' : ∀ x ∈ visited ++ [n], ∀ m ∈ succs edges branches x,
        m ∈ visited ++ [n] ∨ m ∈ rest ++ succs edges branches n := by
      intro x hx m hm
      rcases List.mem_append.1 hx with hx | hx
      · rcases hclosed x hx m hm with h | h
        · exact Or.inl (List.mem_append_left _ h)
        · rcases List.mem_cons.1 h with h | h
          · exact Or.inl (List.mem_append_right _ (by simp [h]))
          · exact Or.inr (List.mem_append_left _ h)
      · have hx' : x = n := by simpa using hx
        exact Or.inr (List.mem_append_right _ (hx' ▸ hm))
    have hvr' : ∀ x ∈ visited ++ [n], Reaches edges branches x := by
      intro x hx
      rcases List.mem_append.1 hx with hx | hx
      · exact hvr x hx
      · have hx' : x = n := by simpa using hx
        exact hx' ▸ hreach_n
    have hqr' : ∀ x ∈ rest ++ succs edges branches n, Reaches edges branches x := by
      intro x hx
      rcases List.mem_append.1 hx with hx | hx
      · exact hqr x (List.mem_cons_of_mem _ hx)
      · exact Reaches.step hreach_n hx
    obtain ⟨ih1, ih2, ih3, ih4⟩ := ih hclosed' hvr' hqr'
    refine ⟨fun x hx => ih1 x (List.mem_append_left _ hx), fun x hx => ?_, ih3, ih4⟩
    rcases List.mem_cons.1 hx with h | h
    · exact ih1 x (List.mem_append_right _ (by simp [h]))
    · exact ih2 x (List.mem_append_left _ h)

/-- The validator's BFS visits exactly the nodes reachable from `START`
through edges and branch targets. -/
theorem mem_bfsVisited_iff (edges : AdjTable) (branches : BranchTable)
    (x : String) :
    x ∈ bfsVisited edges branches ↔ Reaches edges branches x := by
  have hstart : ∀ y ∈ [START], Reaches edges branches y := by
    intro y hy
    have : y = START := by simpa using hy
    exact this ▸ Reaches.start
  have hspec := bfsLoop_spec edges branches [] [START] (by simp) (by simp) hstart
  constructor
  · exact fun hx => hspec.2.2.2 x hx
  · intro hr
    induction hr with
    | start => exact hspec.2.1 START (by simp)
    | step hn hm ih => exact hspec.2.2.1 _ ih _ hm

lemma digitChar_ne_colon : ∀ d, d < 10 → digitChar d ≠ ':' := by decide

lemma colon_not_mem_natDecGo :
    ∀ fuel n acc, n ≤ fuel ∨ n < 10 → ':' ∉ acc → ':' ∉ natDecGo fuel n acc := by
  intro fuel
  induction fuel with
  | zero =>
    intro n acc hn hacc
    have hn' : n < 10 := by omega
    simp only [natDecGo, List.mem_cons, not_or]
    exact ⟨fun h => digitChar_ne_colon n hn' h.symm, hacc⟩
  | succ fuel ih =>
    intro n acc hn hacc
    rw [natDecGo]
    by_cases h10 : n < 10
    · rw [if_pos h10]
      simp only [List.mem_cons, not_or]
      exact ⟨fun h => digitChar_ne_colon n h10 h.symm, hacc⟩
    · rw [if_neg h10]
      apply ih
      · left
        have := Nat.div_lt_self (show 0 < n by omega) (show 1 < 10 by omega)
        omega
      · simp only [List.mem_cons, not_or]
        exact ⟨fun h => digitChar_ne_colon (n % 10) (Nat.mod_lt _ (by omega)) h.symm,
          hacc⟩

lemma colon_not_mem_jsonOfVal (v : Val) : ':' ∉ (jsonOfVal v).data := by
  cases v with
  | int i =>
    simp only [jsonOfVal, intDec]
    by_cases h : i < 0
    · rw [if_pos h]
      simp only [List.mem_cons, not_or]
      refine ⟨by decide, ?_⟩
      exact colon_not_mem_natDecGo _ _ _ (Or.inl le_rfl) (by simp)
    · rw [if_neg h]
      exact colon_not_mem_natDecGo _ _ _ (Or.inl le_rfl) (by simp)
  | bool b => cases b <;> decide

lemma append_colon_inj :
    ∀ (l1 l2 m1 m2 : List Char), ':' ∉ m1 → ':' ∉ m2 →
      l1 ++ ':' :: m1 = l2 ++ ':' :: m2 → l1 = l2 ∧ m1 = m2 := by
  intro l1
  induction l1 with
  | nil =>
    intro l2 m1 m2 h1 h2 heq
    cases l2 with
    | nil => simpa using heq
    | cons c l2' =>
      simp only [List.nil_append, List.cons_append, List.cons.injEq] at heq
      exact absurd (heq.2 ▸ List.mem_append_right l2' (List.mem_cons_self ':' m2)) h1
  | cons c l1' ih =>
    intro l2 m1 m2 h1 h2 heq
    cases l2 with
    | nil =>
      simp only [List.nil_append, List.cons_append, List.cons.injEq] at heq
      exact absurd (heq.2 ▸ List.mem_append_right l1' (List.mem_cons_self ':' m1)) h2
    | cons d l2' =>
      simp only [List.cons_append, List.cons.injEq] at heq
      obtain ⟨hcd, heq'⟩ := heq
      obtain ⟨ha, hb⟩ := ih l2' m1 m2 h1 h2 heq'
      exact ⟨by rw [hcd, ha], hb⟩

/-- The visited-set key determines the node name and the serialized input:
distinct `(node, serialization)` pairs never collide in the visited set. -/
theorem visitKey_inj {n1 n2 : String} {v1 v2 : Val}
    (h : visitKey n1 v1 = visitKey n2 v2) :
    n1 = n2 ∧ jsonOfVal v1 = jsonOfVal v2 := by
  have hdata : n1.data ++ ':' :: (jsonOfVal v1).data
      = n2.data ++ ':' :: (jsonOfVal v2).data := by
    have := congrArg String.data h
    simpa [visitKey, String.data_append] using this
  obtain ⟨ha, hb⟩ := append_colon_inj n1.data n2.data _ _
    (colon_not_mem_jsonOfVal v1) (colon_not_mem_jsonOfVal v2) hdata
  exact ⟨String.ext ha, String.ext hb⟩

/-- Retry law with the loop entered at failure count `a`: if the action fails
on every attempt `a+1 .. retryCount` and succeeds on attempt `retryCount+1`,
the loop returns that success after `retryCount + 1 - a` invocations with one
flat `retryDelay * 1000` wait before each retry. -/
theorem executeNodeLoop_ok_after_failures (spec : NodeSpec) (nodeName : String)
    (nodeInput v : Val) (errs : Nat → String) (a : Nat)
    (ha : a ≤ spec.retryCount)
    (hfail : ∀ k, a + 1 ≤ k → k ≤ spec.retryCount →
      spec.action k nodeInput = Except.error (errs k))
    (hsucc : spec.action (spec.retryCount + 1) nodeInput = Except.ok v) :
    executeNodeLoop spec nodeName nodeInput a =
      ⟨Except.ok v, spec.retryCount + 1 - a,
        List.replicate (spec.retryCount - a) (spec.retryDelay * 1000)⟩ := by
  rw [executeNodeLoop]
  by_cases hR : a = spec.retryCount
  · subst hR
    rw [hsucc]
    simp
  · have ha' : a < spec.retryCount := by omega
    rw [hfail (a + 1) le_rfl (by omega)]
    have hrec := executeNodeLoop_ok_after_failures spec nodeName nodeInput v errs
      (a + 1) (by omega) (fun k hk1 hk2 => hfail k (by omega) hk2) hsucc
    have hc : spec.retryCount + 1 - (a + 1) + 1 = spec.retryCount + 1 - a := by omega
    have hd : spec.retryCount - a = (spec.retryCount - (a + 1)) + 1 := by omega
    simp only [dif_neg (show ¬ a + 1 > spec.retryCount by omega), hrec, hd,
      List.replicate_succ]
    simp only [NodeOutcome.mk.injEq]
    exact ⟨trivial, by omega, trivial⟩
termination_by spec.retryCount - a
decreasing_by
  omega

/-- Exhaustion law with the loop entered at failure count `a`: if the action
fails on every attempt up to `retryCount + 1`, the loop makes
`retryCount + 1 - a` invocations with flat waits and then either returns the
error handler's value as a success (handler called on the last error and the
original input) or raises `ExecutionError` naming the node and the total
attempt count. -/
theorem executeNodeLoop_exhausted (spec : NodeSpec) (nodeName : String)
    (nodeInput : Val) (errs : Nat → String) (a : Nat)
    (ha : a ≤ spec.retryCount)
    (hfail : ∀ k, a + 1 ≤ k → k ≤ spec.retryCount + 1 →
      spec.action k nodeInput = Except.error (errs k)) :
    executeNodeLoop spec nodeName nodeInput a =
      ⟨(match spec.errorHandler with
        | some handler => Except.ok (handler (errs (spec.retryCount + 1)) nodeInput)
        | none => Except.error (WGErr.executionFailure nodeName
            (spec.retryCount + 1) (errs (spec.retryCount + 1)))),
        spec.retryCount + 1 - a,
        List.replicate (spec.retryCount - a) (spec.retryDelay * 1000)⟩ := by
  rw [executeNodeLoop]
  by_cases hR : a = spec.retryCount
  · subst hR
    rw [hfail (spec.retryCount + 1) le_rfl (by omega)]
    simp only [dif_pos (show spec.retryCount + 1 > spec.retryCount by omega)]
    cases spec.errorHandler <;> simp
  · have ha' : a < spec.retryCount := by omega
    rw [hfail (a + 1) le_rfl (by omega)]
    have hrec := executeNodeLoop_exhausted spec nodeName nodeInput errs (a + 1)
      (by omega) (fun k hk1 hk2 => hfail k (by omega) hk2)
    have hc : spec.retryCount + 1 - (a + 1) + 1 = spec.retryCount + 1 - a := by omega
    have hd : spec.retryCount - a = (spec.retryCount - (a + 1)) + 1 := by omega
    simp only [dif_neg (show ¬ a + 1 > spec.retryCount by omega), hrec, hd,
      List.replicate_succ]
    simp only [NodeOutcome.mk.injEq]
    exact ⟨trivial, by omega, trivial⟩
termination_by spec.retryCount - a
decreasing_by
  omega

/-! ## Concrete fixtures used by witnesses and counterexamples -/

/-- A do-nothing node spec: the action returns its input unchanged. -/
def idSpec : NodeSpec :=
  { action := fun _ v => Except.ok v, retryCount := 0, retryDelay := 1/10,
    errorHandler := none, inputType := none, outputType := none }

/-- A node spec that fails twice and then returns `7` (retry budget 2). -/
def c2Spec : NodeSpec :=
  { action := fun k _ => if k ≤ 2 then Except.error "boom" else Except.ok (Val.int 7),
    retryCount := 2, retryDelay := 1/10, errorHandler := none,
    inputType := none, outputType := none }

/-- A branch on the identity discriminator sending `true` to node `b`. -/
def c1Branch : Branch :=
  { path := fun v => v, ends := some [("true", "b")], thenNode := none }

/-- A graph where node `a` has both a branch (to `b`) and a direct edge
(to `x`), and node `c` has only a direct edge (to `d`). -/
def c1G : CompiledGraph :=
  { nodes := [("a", idSpec), ("b", idSpec), ("c", idSpec), ("d", idSpec)],
    edges := buildAdj [("a", "x"), ("c", "d")],
    branches := [("a", [("branch", c1Branch)])],
    compiled := false }

/-! ## Claim theorems -/

/-- Claim C10: `validate()` sets the graph's `compiled` flag to `true` as its
first step, so the only state change it makes is `compiled := true` and the
flag is `true` afterwards even when validation throws an unreachable-nodes
error. -/
theorem c10_validate_sets_compiled_flag (g : CompiledGraph) :
    (validateRun g).2 = { g with compiled := true } ∧
    (validateRun g).2.compiled = true := by
  have h2 : (validateRun g).2 = { g with compiled := true } := by
    unfold validateRun
    dsimp only
    split
    · rfl
    · split <;> rfl
  exact ⟨h2, by rw [h2]⟩

/-- Claim C4: a run is the work loop seeded with `(START, input)`; the first
dequeued entry whose node is `END` makes the loop return the accumulator
immediately even if other entries remain queued (and even if that entry's key
was already visited), and an emptied queue also returns the accumulator as-is
rather than failing. -/
theorem c4_end_arrival_and_empty_queue (g : CompiledGraph) (fuel : Nat)
    (inputData v state : Val) (rest : List (String × Val))
    (visited : List String) (log : List (String × Nat)) :
    executeAsync g inputData fuel = runLoop g fuel [(START, inputData)] [] inputData [] ∧
    runLoop g (fuel + 1) ((END, v) :: rest) visited state log
      = some (Except.ok state, log) ∧
    runLoop g fuel [] visited state log = some (Except.ok state, log) := by
  refine ⟨rfl, ?_, ?_⟩
  · rw [runLoop]
    simp
  · cases fuel <;> rfl

/-- Claim C2: retry law — a node whose `retryCount` is `R`, whose action
fails on attempts `1 .. R` and succeeds with `v` on attempt `R + 1`, returns
`v` from `_executeNode` with the action invoked exactly `R + 1` times, each
retry preceded by one flat wait of `retryDelay` seconds
(`retryDelay * 1000` milliseconds), not scaled by the attempt number. -/
theorem c2_retry_law (spec : NodeSpec) (nodeName : String) (nodeInput v : Val)
    (R : Nat) (errs : Nat → String) (hR : spec.retryCount = R)
    (hfail : ∀ k, 1 ≤ k → k ≤ R → spec.action k nodeInput = Except.error (errs k))
    (hsucc : spec.action (R + 1) nodeInput = Except.ok v) :
    executeNode spec nodeName nodeInput
      = ⟨Except.ok v, R + 1, List.replicate R (spec.retryDelay * 1000)⟩ := by
  subst hR
  have h := executeNodeLoop_ok_after_failures spec nodeName nodeInput v errs 0
    (by omega) (fun k hk1 hk2 => hfail k (by omega) hk2) hsucc
  simpa [executeNode] using h

/-- Witness for C2 at `R = 2`: the action fails twice, succeeds on the third
attempt, and both recorded waits are `0.1 s = 100 ms`. -/
theorem c2_retry_law_witness :
    executeNode c2Spec "work" (Val.int 1)
      = ⟨Except.ok (Val.int 7), 3, [100, 100]⟩ := by
  have h := c2_retry_law c2Spec "work" (Val.int 1) (Val.int 7) 2 (fun _ => "boom")
    rfl (by intro k h1 h2; interval_cases k <;> rfl) rfl
  rw [h]
  norm_num [c2Spec, List.replicate]

/-- Claim C1: successor enqueuing after a node executes.  If the node has
branches (a branches-table entry, binding the branch dictionary `bd`), the
enqueued entries do not depend on the node's result, do not depend on the
edge table at all, all carry the original node input, and are exactly, per
branch independently: the truthy `then` target, plus the `ends` target keyed
by the discriminator applied to the original node input.  If the node has no
branches (no branches-table entry), each unconditional edge destination is
enqueued with the node's result. -/
theorem c1_branch_exclusive_precedence (g : CompiledGraph) (nodeName : String)
    (nodeInput result : Val) :
    (∀ bd, lookupA nodeName g.branches = some bd →
      (∀ result', enqueueSuccessors g nodeName nodeInput result'
          = enqueueSuccessors g nodeName nodeInput result) ∧
      (∀ edges', enqueueSuccessors { g with edges := edges' } nodeName nodeInput result
          = enqueueSuccessors g nodeName nodeInput result) ∧
      (∀ p ∈ enqueueSuccessors g nodeName nodeInput result, p.2 = nodeInput) ∧
      enqueueSuccessors g nodeName nodeInput result
        = bd.flatMap (fun kb =>
            (match kb.2.thenNode with
              | some t => if t ≠ "" then [(t, nodeInput)] else []
              | none => [])
            ++ (match kb.2.ends with
              | some es =>
                match lookupA (jsToString (kb.2.path nodeInput)) es with
                | some tgt => [(tgt, nodeInput)]
                | none => []
              | none => []))) ∧
    (lookupA nodeName g.branches = none →
      enqueueSuccessors g nodeName nodeInput result
        = ((lookupA nodeName g.edges).getD []).map (fun d => (d, result))) := by
  constructor
  · intro bd hbd
    have hchar : enqueueSuccessors g nodeName nodeInput result
        = bd.flatMap (fun kb =>
            (match kb.2.thenNode with
              | some t => if t ≠ "" then [(t, nodeInput)] else []
              | none => [])
            ++ (match kb.2.ends with
              | some es =>
                match lookupA (jsToString (kb.2.path nodeInput)) es with
                | some tgt => [(tgt, nodeInput)]
                | none => []
              | none => [])) := by
      unfold enqueueSuccessors
      rw [hbd]
    refine ⟨?_, ?_, ?_, hchar⟩
    · intro result'
      unfold enqueueSuccessors
      rw [hbd]
    · intro edges'
      unfold enqueueSuccessors
      rw [show ({ g with edges := edges' } : CompiledGraph).branches = g.branches from rfl,
        hbd]
    · intro p hp
      rw [hchar] at hp
      obtain ⟨kb, _, hmem⟩ := List.mem_flatMap.1 hp
      rcases List.mem_append.1 hmem with h | h
      · rcases hthen : kb.2.thenNode with _ | t
        · rw [hthen] at h
          simp at h
        · rw [hthen] at h
          by_cases ht : t ≠ ""
          · have hpe : p = (t, nodeInput) := by simpa [ht] using h
            rw [hpe]
          · simp [ht] at h
      · rcases hends : kb.2.ends with _ | es
        · rw [hends] at h
          simp at h
        · rw [hends] at h
          rcases hlk : lookupA (jsToString (kb.2.path nodeInput)) es with _ | tgt
          · simp [hlk] at h
          · simp only [hlk] at h
            have hpe : p = (tgt, nodeInput) := by simpa using h
            rw [hpe]
  · intro hnone
    unfold enqueueSuccessors
    rw [hnone]
    rcases he : lookupA nodeName g.edges with _ | dests <;> simp [he]

/-- Witness for C1: in `c1G`, node `a` (branch to `b`, direct edge to `x`)
enqueues only the branch target `b` with the original input, never `x`; node
`c` (no branches) enqueues its edge destination `d` with the result. -/
theorem c1_branch_exclusive_precedence_witness :
    enqueueSuccessors c1G "a" (Val.bool true) (Val.int 99)
      = [("b", Val.bool true)] ∧
    enqueueSuccessors c1G "c" (Val.bool true) (Val.int 99)
      = [("d", Val.int 99)] := by
  have h1 := ((c1_branch_exclusive_precedence c1G "a" (Val.bool true)
    (Val.int 99)).1 [("branch", c1Branch)] rfl).2.2.2
  have h2 := (c1_branch_exclusive_precedence c1G "c" (Val.bool true)
    (Val.int 99)).2 rfl
  refine ⟨?_, ?_⟩
  · rw [h1]
    rfl
  · rw [h2]
    rfl

/-- A single-node graph used by the C5 witness. -/
def c5G : CompiledGraph :=
  { nodes := [("a", idSpec)], edges := [], branches := [], compiled := false }

/-- Claim C5: visited-set semantics of the work loop, for a loop state whose
visited set is the keys of the previously executed pairs `V`.  A dequeued
entry whose `(node, serialized input)` pair is already among `V` is discarded
— the loop moves on with the queue tail, executing nothing, updating nothing,
enqueuing nothing.  An entry whose input's serialization differs from every
previously visited input for that node is executed normally: the node runs,
the accumulator is updated (sentinels excepted), its key is added and its
successors are enqueued. -/
theorem c5_visited_set_dedup (g : CompiledGraph) (fuel : Nat) (nodeName : String)
    (nodeInput : Val) (rest : List (String × Val)) (V : List (String × Val))
    (state : Val) (log : List (String × Nat)) (hEnd : nodeName ≠ END) :
    ((∃ p ∈ V, p.1 = nodeName ∧ jsonOfVal p.2 = jsonOfVal nodeInput) →
      runLoop g (fuel + 1) ((nodeName, nodeInput) :: rest)
          (V.map (fun p => visitKey p.1 p.2)) state log
        = runLoop g fuel rest (V.map (fun p => visitKey p.1 p.2)) state log) ∧
    ((∀ p ∈ V, ¬(p.1 = nodeName ∧ jsonOfVal p.2 = jsonOfVal nodeInput)) →
      runLoop g (fuel + 1) ((nodeName, nodeInput) :: rest)
          (V.map (fun p => visitKey p.1 p.2)) state log
        = match executeNodeRun g nodeName nodeInput with
          | (Except.error e, lg) => some (Except.error e, log ++ lg)
          | (Except.ok result, lg) =>
            runLoop g fuel (rest ++ enqueueSuccessors g nodeName nodeInput result)
              (V.map (fun p => visitKey p.1 p.2) ++ [visitKey nodeName nodeInput])
              (if nodeName ≠ START ∧ nodeName ≠ END then result else state)
              (log ++ lg)) := by
  constructor
  · rintro ⟨p, hpV, hp1, hp2⟩
    have hkey : visitKey nodeName nodeInput ∈ V.map (fun p => visitKey p.1 p.2) := by
      refine List.mem_map.2 ⟨p, hpV, ?_⟩
      rw [visitKey, visitKey, hp1, hp2]
    rw [runLoop, if_neg hEnd, if_pos hkey]
  · intro hfresh
    have hkey : visitKey nodeName nodeInput ∉ V.map (fun p => visitKey p.1 p.2) := by
      intro hmem
      obtain ⟨p, hpV, hpk⟩ := List.mem_map.1 hmem
      exact hfresh p hpV (visitKey_inj hpk)
    rw [runLoop, if_neg hEnd, if_neg hkey]

/-- Witness for C5: with `(a, 1)` already visited, re-entering `a` with input
`1` is a no-op (the accumulator stays `0`, the action never runs), while
entering `a` with input `2` — same node, different serialization — executes
normally (accumulator becomes `2`, one action call logged). -/
theorem c5_visited_set_dedup_witness :
    runLoop c5G 3 [("a", Val.int 1)] [visitKey "a" (Val.int 1)] (Val.int 0) []
      = some (Except.ok (Val.int 0), []) ∧
    runLoop c5G 3 [("a", Val.int 2)] [visitKey "a" (Val.int 1)] (Val.int 0) []
      = some (Except.ok (Val.int 2), [("a", 1)]) := by
  have hm : [visitKey "a" (Val.int 1)]
      = ([("a", Val.int 1)] : List (String × Val)).map (fun p => visitKey p.1 p.2) :=
    rfl
  constructor
  · have h := (c5_visited_set_dedup c5G 2 "a" (Val.int 1) [] [("a", Val.int 1)]
      (Val.int 0) [] (by decide)).1 ⟨("a", Val.int 1), by simp, rfl, rfl⟩
    rw [hm, h]
    rfl
  · have h := (c5_visited_set_dedup c5G 2 "a" (Val.int 2) [] [("a", Val.int 1)]
      (Val.int 0) [] (by decide)).2 (by decide)
    rw [hm, h]
    simp [executeNodeRun, executeNode, executeNodeLoop, lookupA, c5G, idSpec,
      enqueueSuccessors, runLoop, START, END]

/-- Claim C3: exhausted retry budgets.  (a) With an error handler configured,
the handler is called with the last error and the *original node input*, its
return value is the node's successful result (the error is absorbed), and the
action was invoked `retryCount + 1` times.  (b) With no handler, the node
raises `ExecutionFailure` naming the node and the total attempt count.
(c) A node-level error makes the work loop return that error, terminating the
run.  (d) In particular, a single-node run whose node has retry budget `0`,
an always-failing action and a handler returning `handler msg input` yields
that value as the overall run result with the action invoked exactly once. -/
theorem c3_error_handler_absorption (spec : NodeSpec) (nodeName : String) :
    (∀ (nodeInput : Val) (errs : Nat → String) (handler : String → Val → Val),
      (∀ k, 1 ≤ k → k ≤ spec.retryCount + 1 →
        spec.action k nodeInput = Except.error (errs k)) →
      spec.errorHandler = some handler →
      executeNode spec nodeName nodeInput
        = ⟨Except.ok (handler (errs (spec.retryCount + 1)) nodeInput),
            spec.retryCount + 1,
            List.replicate spec.retryCount (spec.retryDelay * 1000)⟩) ∧
    (∀ (nodeInput : Val) (errs : Nat → String),
      (∀ k, 1 ≤ k → k ≤ spec.retryCount + 1 →
        spec.action k nodeInput = Except.error (errs k)) →
      spec.errorHandler = none →
      executeNode spec nodeName nodeInput
        = ⟨Except.error (WGErr.executionFailure nodeName (spec.retryCount + 1)
              (errs (spec.retryCount + 1))),
            spec.retryCount + 1,
            List.replicate spec.retryCount (spec.retryDelay * 1000)⟩) ∧
    (∀ (g : CompiledGraph) (fuel : Nat) (nodeInput : Val)
        (rest : List (String × Val)) (visited : List String) (state : Val)
        (log lg : List (String × Nat)) (e : WGErr),
      nodeName ≠ END → visitKey nodeName nodeInput ∉ visited →
      executeNodeRun g nodeName nodeInput = (Except.error e, lg) →
      runLoop g (fuel + 1) ((nodeName, nodeInput) :: rest) visited state log
        = some (Except.error e, log ++ lg)) ∧
    (∀ (handler : String → Val → Val) (input : Val) (msg : String),
      spec.retryCount = 0 → spec.errorHandler = some handler →
      spec.action 1 input = Except.error msg →
      nodeName ≠ START → nodeName ≠ END →
      executeAsync (mkCompiledGraph [(nodeName, spec)] [(START, nodeName)] []) input 3
        = some (Except.ok (handler msg input), [(nodeName, 1)])) := by
  refine ⟨?_, ?_, ?_, ?_⟩
  · intro nodeInput errs handler hfail hH
    have h := executeNodeLoop_exhausted spec nodeName nodeInput errs 0 (by omega)
      (fun k hk1 hk2 => hfail k (by omega) hk2)
    rw [executeNode, h, hH]
    simp
  · intro nodeInput errs hfail hH
    have h := executeNodeLoop_exhausted spec nodeName nodeInput errs 0 (by omega)
      (fun k hk1 hk2 => hfail k (by omega) hk2)
    rw [executeNode, h, hH]
    simp
  · intro g fuel nodeInput rest visited state log lg e hEnd hvis hrun
    rw [runLoop, if_neg hEnd, if_neg hvis, hrun]
  · intro handler input msg hR hH hA hS hE
    have hSE : ¬(START = END) := by decide
    have hvk : ¬(visitKey nodeName input = visitKey START input) := fun hc =>
      hS (visitKey_inj hc).1
    have hA1 : spec.action (0 + 1) input = Except.error msg := by simpa using hA
    simp [executeAsync, runLoop, executeNodeRun, executeNode, executeNodeLoop,
      enqueueSuccessors, mkCompiledGraph, buildAdj, adjInsert, lookupA,
      hR, hH, hA1, hS, hE, hSE, hvk]

/-- A retry-budget-0 node spec whose action always fails with `bad` and whose
error handler returns the negation of the original input. -/
def c3Spec : NodeSpec :=
  { action := fun _ _ => Except.error "bad",
    retryCount := 0, retryDelay := 1/10,
    errorHandler := some (fun _ v => match v with
      | Val.int i => Val.int (-i)
      | Val.bool b => Val.bool (!b)),
    inputType := none, outputType := none }

/-- A retry-budget-1 node spec with no handler whose action always fails. -/
def c3SpecNoHandler : NodeSpec :=
  { action := fun _ _ => Except.error "bad",
    retryCount := 1, retryDelay := 1/10, errorHandler := none,
    inputType := none, outputType := none }

/-- Witness for C3: the handler absorbs the failure (single action call,
handler applied to the original input `5` giving `-5`, also as the overall
result of the single-node run), and without a handler the node raises
`ExecutionFailure` naming the node and both attempts. -/
theorem c3_error_handler_absorption_witness :
    executeNode c3Spec "fail" (Val.int 5)
      = ⟨Except.ok (Val.int (-5)), 1, []⟩ ∧
    executeNode c3SpecNoHandler "fail" (Val.int 5)
      = ⟨Except.error (WGErr.executionFailure "fail" 2 "bad"), 2,
          List.replicate 1 ((1 : ℚ)/10 * 1000)⟩ ∧
    executeAsync (mkCompiledGraph [("fail", c3Spec)] [(START, "fail")] [])
        (Val.int 5) 3
      = some (Except.ok (Val.int (-5)), [("fail", 1)]) := by
  obtain ⟨h1, h2, h3, h4⟩ := c3_error_handler_absorption c3Spec "fail"
  obtain ⟨g1, g2, g3, g4⟩ := c3_error_handler_absorption c3SpecNoHandler "fail"
  refine ⟨?_, ?_, ?_⟩
  · have h := h1 (Val.int 5) (fun _ => "bad")
      (fun _ v => match v with
        | Val.int i => Val.int (-i)
        | Val.bool b => Val.bool (!b))
      (by intro k hk1 hk2; rfl) rfl
    rw [h]
    rfl
  · have h := g2 (Val.int 5) (fun _ => "bad") (by intro k hk1 hk2; rfl) rfl
    rw [h]
    rfl
  · exact h4 (fun _ v => match v with
      | Val.int i => Val.int (-i)
      | Val.bool b => Val.bool (!b)) (Val.int 5) "bad" rfl rfl rfl
      (by decide) (by decide)

/-- Claim C6: `validate()` succeeds exactly when every registered node is
reachable from `START` through the BFS successor relation (every
unconditional edge and every branch target), and when it fails the
unreachable-nodes error names exactly the registered nodes the walk never
visited (a nonempty list). -/
theorem c6_validate_reachability (g : CompiledGraph) :
    ((validateRun g).1 = Except.ok () ↔
      ∀ n ∈ g.nodes.map Prod.fst, Reaches g.edges g.branches n) ∧
    (∀ l, (validateRun g).1 = Except.error (WGErr.unreachableNodes l) →
      l ≠ [] ∧ ∀ n, n ∈ l ↔
        n ∈ g.nodes.map Prod.fst ∧ ¬ Reaches g.edges g.branches n) := by
  have hbfs := mem_bfsVisited_iff g.edges g.branches
  unfold validateRun
  dsimp only
  by_cases hempty : g.nodes.isEmpty
  · rw [if_pos hempty]
    have hnil : g.nodes = [] := List.isEmpty_iff.mp hempty
    constructor
    · simp [hnil]
    · intro l hl
      simp at hl
  · rw [if_neg hempty]
    by_cases hunr : ((g.nodes.map Prod.fst).filter
        (fun k => decide (k ∉ bfsVisited g.edges g.branches))).isEmpty
    · rw [if_pos hunr]
      have hfil := List.isEmpty_iff.mp hunr
      have hall : ∀ n ∈ g.nodes.map Prod.fst, Reaches g.edges g.branches n := by
        intro n hn
        by_cases hv : n ∈ bfsVisited g.edges g.branches
        · exact (hbfs n).1 hv
        · exfalso
          have hmem : n ∈ (g.nodes.map Prod.fst).filter
              (fun k => decide (k ∉ bfsVisited g.edges g.branches)) :=
            List.mem_filter.2 ⟨hn, by simpa using hv⟩
          rw [hfil] at hmem
          simp at hmem
      constructor
      · simpa using hall
      · intro l hl
        simp at hl
    · rw [if_neg hunr]
      have hne : (g.nodes.map Prod.fst).filter
          (fun k => decide (k ∉ bfsVisited g.edges g.branches)) ≠ [] := by
        intro hnil
        rw [hnil] at hunr
        simp at hunr
      constructor
      · constructor
        · intro habs
          simp at habs
        · intro hall
          exfalso
          obtain ⟨n, hn⟩ := List.exists_mem_of_ne_nil _ hne
          have hmf := List.mem_filter.1 hn
          have hnv : n ∉ bfsVisited g.edges g.branches := by simpa using hmf.2
          exact hnv ((hbfs n).2 (hall n hmf.1))
      · intro l hl
        have hl' : (g.nodes.map Prod.fst).filter
            (fun k => decide (k ∉ bfsVisited g.edges g.branches)) = l := by
          simpa using hl
        subst hl'
        refine ⟨hne, fun n => ?_⟩
        rw [List.mem_filter]
        constructor
        · rintro ⟨hn, hdec⟩
          have hnv : n ∉ bfsVisited g.edges g.branches := by simpa using hdec
          exact ⟨hn, fun hr => hnv ((hbfs n).2 hr)⟩
        · rintro ⟨hn, hr⟩
          exact ⟨hn, by simpa using fun hv => hr ((hbfs n).1 hv)⟩

/-- A two-node graph where `b` has no inbound edge or branch target. -/
def c6G : CompiledGraph :=
  mkCompiledGraph [("a", idSpec), ("b", idSpec)] [(START, "a")] []

/-- Witness for C6: validating `c6G` fails naming exactly the unreachable
registered node `b`, and `b` is indeed registered and unreachable. -/
theorem c6_validate_reachability_witness :
    (validateRun c6G).1 = Except.error (WGErr.unreachableNodes ["b"]) ∧
    ("b" ∈ c6G.nodes.map Prod.fst ∧ ¬ Reaches c6G.edges c6G.branches "b") := by
  have heval : (validateRun c6G).1 = Except.error (WGErr.unreachableNodes ["b"]) := by
    simp [validateRun, c6G, mkCompiledGraph, buildAdj, adjInsert, bfsVisited,
      bfsLoop, succs, lookupA, START, END]
  exact ⟨heval, ((c6_validate_reachability c6G).2 ["b"] heval).2 "b" |>.1 (by simp)⟩

/-- An endpoint that is a sentinel or names a registered node. -/
def regOrSentinel (nodes : NodeTable) (n : String) : Prop :=
  n = START ∨ n = END ∨ (lookupA n nodes).isSome = true

instance (nodes : NodeTable) (n : String) : Decidable (regOrSentinel nodes n) := by
  unfold regOrSentinel
  infer_instance

/-- An unconditional edge between two registered non-sentinel nodes whose
endpoints both declare type predicates that are not the identical predicate. -/
def mismatchEdge (nodes : NodeTable) (e : String × String) : Prop :=
  ¬(e.1 = START ∨ e.1 = END) ∧ ¬(e.2 = START ∨ e.2 = END) ∧
  ∃ ss es, lookupA e.1 nodes = some ss ∧ lookupA e.2 nodes = some es ∧
    ss.outputType.isSome = true ∧ es.inputType.isSome = true ∧
    ss.outputType ≠ es.inputType

lemma checkEdges_spec (nodes : NodeTable) :
    ∀ edges : List (String × String),
      (∀ e ∈ edges, regOrSentinel nodes e.1 ∧ regOrSentinel nodes e.2) →
      (checkEdges nodes edges = Except.ok () ↔ ∀ e ∈ edges, ¬ mismatchEdge nodes e) ∧
      (∀ a b, checkEdges nodes edges = Except.error (WGErr.typeMismatch a b) →
        (a, b) ∈ edges ∧ mismatchEdge nodes (a, b)) := by
  intro edges
  induction edges with
  | nil =>
    intro _
    constructor
    · simp [checkEdges]
    · intro a b h
      simp [checkEdges] at h
  | cons e rest ih =>
    intro hreg
    obtain ⟨s, t⟩ := e
    obtain ⟨ihiff, iherr⟩ := ih (fun e he => hreg e (List.mem_cons_of_mem _ he))
    by_cases hsent : (s = START ∨ s = END) ∨ (t = START ∨ t = END)
    · rw [checkEdges, if_pos hsent]
      constructor
      · rw [ihiff]
        constructor
        · intro hall e he
          rcases List.mem_cons.1 he with he | he
          · subst he
            rintro ⟨hm1, hm2, -⟩
            rcases hsent with h | h
            · exact hm1 h
            · exact hm2 h
          · exact hall e he
        · intro hall e he
          exact hall e (List.mem_cons_of_mem _ he)
      · intro a b herr
        obtain ⟨hmem, hmis⟩ := iherr a b herr
        exact ⟨List.mem_cons_of_mem _ hmem, hmis⟩
    · have hhead := hreg (s, t) (List.mem_cons_self _ _)
      have hs' : ¬(s = START ∨ s = END) := fun h => hsent (Or.inl h)
      have ht' : ¬(t = START ∨ t = END) := fun h => hsent (Or.inr h)
      have hssome : (lookupA s nodes).isSome = true := by
        rcases hhead.1 with h | h | h
        · exact absurd (Or.inl h) hs'
        · exact absurd (Or.inr h) hs'
        · exact h
      have htsome : (lookupA t nodes).isSome = true := by
        rcases hhead.2 with h | h | h
        · exact absurd (Or.inl h) ht'
        · exact absurd (Or.inr h) ht'
        · exact h
      obtain ⟨ss, hss⟩ := Option.isSome_iff_exists.mp hssome
      obtain ⟨es, hes⟩ := Option.isSome_iff_exists.mp htsome
      rw [checkEdges, if_neg hsent, hss, hes]
      dsimp only
      by_cases hty : ss.outputType.isSome = true ∧ es.inputType.isSome = true
      · by_cases hne : ss.outputType ≠ es.inputType
        · rw [if_pos (by exact_mod_cast hty), if_pos hne]
          have hmis : mismatchEdge nodes (s, t) :=
            ⟨hs', ht', ss, es, hss, hes, hty.1, hty.2, hne⟩
          constructor
          · constructor
            · intro h
              simp at h
            · intro hall
              exact absurd hmis (hall (s, t) (List.mem_cons_self _ _))
          · intro a b herr
            have : s = a ∧ t = b := by simpa using herr
            obtain ⟨rfl, rfl⟩ := this
            exact ⟨List.mem_cons_self _ _, hmis⟩
        · rw [if_pos (by exact_mod_cast hty), if_neg hne]
          have hheadok : ¬ mismatchEdge nodes (s, t) := by
            rintro ⟨-, -, ss2, es2, hss2, hes2, -, -, hne2⟩
            rw [hss] at hss2
            rw [hes] at hes2
            cases hss2
            cases hes2
            exact hne2 (not_not.mp hne)
          constructor
          · rw [ihiff]
            constructor
            · intro hall e he
              rcases List.mem_cons.1 he with he | he
              · subst he
                exact hheadok
              · exact hall e he
            · intro hall e he
              exact hall e (List.mem_cons_of_mem _ he)
          · intro a b herr
            obtain ⟨hmem, hmis⟩ := iherr a b herr
            exact ⟨List.mem_cons_of_mem _ hmem, hmis⟩
      · rw [if_neg (by exact_mod_cast hty)]
        have hheadok : ¬ mismatchEdge nodes (s, t) := by
          rintro ⟨-, -, ss2, es2, hss2, hes2, hsome1, hsome2, -⟩
          rw [hss] at hss2
          rw [hes] at hes2
          cases hss2
          cases hes2
          exact hty ⟨hsome1, hsome2⟩
        constructor
        · rw [ihiff]
          constructor
          · intro hall e he
            rcases List.mem_cons.1 he with he | he
            · subst he
              exact hheadok
            · exact hall e he
          · intro hall e he
            exact hall e (List.mem_cons_of_mem _ he)
        · intro a b herr
          obtain ⟨hmem, hmis⟩ := iherr a b herr
          exact ⟨List.mem_cons_of_mem _ hmem, hmis⟩

/-- Claim C7: builder validation raises `TypeMismatch` exactly when some
unconditional edge joins two registered non-sentinel nodes that both declare
type predicates which are not the identical predicate; a raised mismatch
names an offending edge's two nodes; and branches are never type-checked
(replacing the branch table never changes the validation result).  Edges
touching a sentinel and endpoints without predicates never trigger it, which
is part of the `exactly when`. -/
theorem c7_type_mismatch_exactly (g : WorkflowGraph)
    (hreg : ∀ e ∈ g.edges, regOrSentinel g.nodes e.1 ∧ regOrSentinel g.nodes e.2) :
    (wgValidate g = Except.ok () ↔ ∀ e ∈ g.edges, ¬ mismatchEdge g.nodes e) ∧
    (∀ a b, wgValidate g = Except.error (WGErr.typeMismatch a b) →
      (a, b) ∈ g.edges ∧ mismatchEdge g.nodes (a, b)) ∧
    (∀ bs, wgValidate { g with branches := bs } = wgValidate g) := by
  obtain ⟨h1, h2⟩ := checkEdges_spec g.nodes g.edges hreg
  exact ⟨h1, h2, fun bs => rfl⟩

/-- A node spec declaring output predicate tag `0`. -/
def c7SpecOut : NodeSpec := { idSpec with outputType := some 0 }

/-- A node spec declaring input predicate tag `1`. -/
def c7SpecIn : NodeSpec := { idSpec with inputType := some 1 }

/-- A builder graph with a single edge `a → b` whose endpoint predicates are
distinct. -/
def c7WG : WorkflowGraph :=
  { nodes := [("a", c7SpecOut), ("b", c7SpecIn)], edges := [("a", "b")],
    branches := [], entryPoints := [], finishPoints := [] }

/-- Witness for C7: validating `c7WG` raises `TypeMismatch` naming `a` and
`b`, and that edge is indeed an offending edge. -/
theorem c7_type_mismatch_exactly_witness :
    wgValidate c7WG = Except.error (WGErr.typeMismatch "a" "b") ∧
    ("a", "b") ∈ c7WG.edges ∧ mismatchEdge c7WG.nodes ("a", "b") := by
  have hreg : ∀ e ∈ c7WG.edges,
      regOrSentinel c7WG.nodes e.1 ∧ regOrSentinel c7WG.nodes e.2 := by
    decide
  obtain ⟨h1, h2, h3⟩ := c7_type_mismatch_exactly c7WG hreg
  have heval : wgValidate c7WG = Except.error (WGErr.typeMismatch "a" "b") := by
    decide
  exact ⟨heval, h2 "a" "b" heval⟩

/-- The diagram renderer exactly as claim C8 states it, as a function of the
graph-table triple: header, sentinel declarations (START then END), one
declaration per registered node in insertion order, **one line per
unconditional edge in table order**, then the branch-target lines with the
title-casing rule. -/
def mermaidLinesClaimed (nodes : NodeTable) (edgeList : List (String × String))
    (branches : BranchTable) : List String :=
  ["```mermaid", "flowchart TD"]
    ++ ["    " ++ START ++ "[\"START\"]", "    " ++ END ++ "[\"END\"]"]
    ++ nodes.map (fun p => "    " ++ p.1 ++ "[\"" ++ p.1 ++ "\"]")
    ++ edgeList.map (fun e => "    " ++ e.1 ++ " --> " ++ e.2)
    ++ branches.flatMap (fun p =>
        p.2.flatMap (fun kb =>
          (match kb.2.thenNode with
            | some t => if t ≠ "" then ["    " ++ p.1 ++ " -.-> " ++ t] else []
            | none => [])
          ++ (match kb.2.ends with
            | some es => es.map (fun ct =>
                let dc := if ct.1 = "true" then "True"
                  else if ct.1 = "false" then "False" else ct.1
                "    " ++ p.1 ++ " -.|" ++ dc ++ "|.-> " ++ ct.2)
            | none => [])))
    ++ ["```"]

/-- The claim-C8 renderer joined into the final diagram text. -/
def toMermaidClaimed (nodes : NodeTable) (edgeList : List (String × String))
    (branches : BranchTable) : String :=
  String.intercalate "\n" (mermaidLinesClaimed nodes edgeList branches)

/-- The C8 renderer amended to match the code: the edge lines appear grouped
by source node — sources in order of first appearance in the edge table, each
source's destinations in table order — because the constructor folds the edge
list into an adjacency object before rendering. -/
def toMermaidAmended (nodes : NodeTable) (edgeList : List (String × String))
    (branches : BranchTable) : String :=
  String.intercalate "\n"
    (["```mermaid", "flowchart TD"]
      ++ ["    " ++ START ++ "[\"START\"]", "    " ++ END ++ "[\"END\"]"]
      ++ nodes.map (fun p => "    " ++ p.1 ++ "[\"" ++ p.1 ++ "\"]")
      ++ (buildAdj edgeList).flatMap
          (fun p => p.2.map (fun d => "    " ++ p.1 ++ " --> " ++ d))
      ++ branches.flatMap (fun p =>
          p.2.flatMap (fun kb =>
            (match kb.2.thenNode with
              | some t => if t ≠ "" then ["    " ++ p.1 ++ " -.-> " ++ t] else []
              | none => [])
            ++ (match kb.2.ends with
              | some es => es.map (fun ct =>
                  let dc := if ct.1 = "true" then "True"
                    else if ct.1 = "false" then "False" else ct.1
                  "    " ++ p.1 ++ " -.|" ++ dc ++ "|.-> " ++ ct.2)
              | none => [])))
      ++ ["```"])

/-- Counterexample to claim C8 as stated: with the edge table
`[(a,b), (c,d), (a,e)]` the renderer does *not* emit the edge lines in table
order — both `a` edges come out adjacent (grouped by source) with `c → d`
after them, because the constructor regroups the edge list into an adjacency
object keyed by source. -/
theorem c8_counterexample_edge_table_order :
    (mkCompiledGraph [] [("a", "b"), ("c", "d"), ("a", "e")] []).toMermaid
      ≠ toMermaidClaimed [] [("a", "b"), ("c", "d"), ("a", "e")] [] := by
  decide

/-- Claim C8 amended: the renderer is a pure function of the tables emitting
the header, the two sentinel declarations (START then END), one declaration
per registered node in insertion order, one line per unconditional edge
grouped by source (sources in first-occurrence order, each source's edges in
table order), then one line per branch target — truthy `then` targets as
unlabeled dashed transitions and `ends` targets as labeled dashed transitions
whose label is title-cased exactly when the discriminator key is literally
`"true"` or `"false"` and kept verbatim otherwise.  Being a pure function of
the tables, repeated calls on an unmodified graph are byte-identical. -/
theorem c8_renderer_amended (nodes : NodeTable) (edgeList : List (String × String))
    (branches : BranchTable) :
    (mkCompiledGraph nodes edgeList branches).toMermaid
      = toMermaidAmended nodes edgeList branches := rfl

/-- A branch whose `true` target `ghost` is never registered as a node. -/
def ghostBranch : Branch :=
  { path := fun v => v, ends := some [("true", "ghost")], thenNode := none }

/-- Builder calls registering only node `a` but branching to the
unregistered `ghost`. -/
def c9Ops : List BuildOp :=
  [BuildOp.node "a" idSpec, BuildOp.entry "a", BuildOp.cond "a" ghostBranch none]

/-- The builder state produced by `c9Ops`. -/
def c9WG : WorkflowGraph :=
  { nodes := [("a", idSpec)], edges := [(START, "a")],
    branches := [("a", [("branch", ghostBranch)])],
    entryPoints := ["a"], finishPoints := [] }

/-- The compiled graph produced from `c9WG`'s tables. -/
def c9CG : CompiledGraph :=
  mkCompiledGraph [("a", idSpec)] [(START, "a")]
    [("a", [("branch", ghostBranch)])]

/-- Counterexample to claim C9 as stated: the builder accepts a branch to the
unregistered node `ghost` with no error, builder validation and compiled
validation both succeed, and the violation surfaces only at run time, as a
`TypeError` when the run dequeues `ghost`. -/
theorem c9_counterexample_branch_endpoint :
    buildGraph c9Ops = Except.ok c9WG ∧
    wgValidate c9WG = Except.ok () ∧
    (validateRun c9CG).1 = Except.ok () ∧
    executeAsync c9CG (Val.bool true) 5
      = some (Except.error WGErr.jsTypeError, [("a", 1)]) := by
  refine ⟨rfl, rfl, ?_, ?_⟩
  · simp [validateRun, c9CG, mkCompiledGraph, buildAdj, adjInsert, bfsVisited,
      bfsLoop, succs, lookupA, ghostBranch, START, END]
  · simp [executeAsync, runLoop, executeNodeRun, executeNode, executeNodeLoop,
      enqueueSuccessors, c9CG, mkCompiledGraph, buildAdj, adjInsert, lookupA,
      idSpec, ghostBranch, jsToString, visitKey, jsonOfVal, START, END]

lemma lookupA_append {β : Type} (k : String) (l1 l2 : List (String × β)) :
    lookupA k (l1 ++ l2)
      = match lookupA k l1 with
        | some v => some v
        | none => lookupA k l2 := by
  induction l1 with
  | nil => simp [lookupA]
  | cons p rest ih =>
    obtain ⟨k', v'⟩ := p
    by_cases hk : k = k'
    · simp [lookupA, hk]
    · simp [lookupA, hk, ih]

lemma regOrSentinel_append (nodes more : NodeTable) (n : String)
    (h : regOrSentinel nodes n) : regOrSentinel (nodes ++ more) n := by
  unfold regOrSentinel at h ⊢
  rcases h with h | h | h
  · exact Or.inl h
  · exact Or.inr (Or.inl h)
  · refine Or.inr (Or.inr ?_)
    rw [lookupA_append]
    obtain ⟨v, hv⟩ := Option.isSome_iff_exists.mp h
    rw [hv]
    rfl

/-- Invariant preservation: one successful builder call keeps every edge
endpoint sentinel-or-registered. -/
lemma applyOp_edges_ok {g g' : WorkflowGraph} {op : BuildOp}
    (hinv : ∀ e ∈ g.edges, regOrSentinel g.nodes e.1 ∧ regOrSentinel g.nodes e.2)
    (h : applyOp g op = Except.ok g') :
    ∀ e ∈ g'.edges, regOrSentinel g'.nodes e.1 ∧ regOrSentinel g'.nodes e.2 := by
  cases op with
  | node name spec =>
    simp only [applyOp] at h
    unfold addNode at h
    split at h
    · simp at h
    · split at h
      · simp at h
      · have hg' : g' = { g with nodes := g.nodes ++ [(name, spec)] } := by
          simpa using h.symm
        subst hg'
        intro e he
        obtain ⟨h1, h2⟩ := hinv e he
        exact ⟨regOrSentinel_append _ _ _ h1, regOrSentinel_append _ _ _ h2⟩
  | edge f t =>
    simp only [applyOp] at h
    unfold addEdge at h
    split at h
    · simp at h
    · split at h
      · simp at h
      · rename_i hf ht
        have hg' : g' = { g with edges := g.edges ++ [(f, t)] } := by
          simpa using h.symm
        subst hg'
        intro e he
        rcases List.mem_append.1 he with he | he
        · exact hinv e he
        · have he' : e = (f, t) := by simpa using he
          subst he'
          constructor
          · unfold regOrSentinel
            by_cases hsf : f = START ∨ f = END
            · rcases hsf with h' | h'
              · exact Or.inl h'
              · exact Or.inr (Or.inl h')
            · refine Or.inr (Or.inr ?_)
              rcases hlf : lookupA f g.nodes with _ | v
              · exact absurd ⟨hsf, by rw [hlf]; rfl⟩ hf
              · rfl
          · unfold regOrSentinel
            by_cases hst : t = START ∨ t = END
            · rcases hst with h' | h'
              · exact Or.inl h'
              · exact Or.inr (Or.inl h')
            · refine Or.inr (Or.inr ?_)
              rcases hlt : lookupA t g.nodes with _ | v
              · exact absurd ⟨hst, by rw [hlt]; rfl⟩ ht
              · rfl
  | cond f b k =>
    simp only [applyOp] at h
    have hg' : g' = addConditionalEdges g f b k := by simpa using h.symm
    subst hg'
    exact hinv
  | entry n =>
    simp only [applyOp] at h
    unfold setEntryPoint at h
    split at h
    · simp at h
    · rename_i hn
      have hg' : g' = { g with
          entryPoints := if n ∈ g.entryPoints then g.entryPoints
            else g.entryPoints ++ [n],
          edges := g.edges ++ [(START, n)] } := by
        simpa using h.symm
      subst hg'
      intro e he
      rcases List.mem_append.1 he with he | he
      · exact hinv e he
      · have he' : e = (START, n) := by simpa using he
        subst he'
        refine ⟨Or.inl rfl, Or.inr (Or.inr ?_)⟩
        rcases hln : lookupA n g.nodes with _ | v
        · exact absurd (by rw [hln]; rfl) hn
        · rfl
  | finish n =>
    simp only [applyOp] at h
    unfold setFinishPoint at h
    split at h
    · simp at h
    · rename_i hn
      have hg' : g' = { g with
          finishPoints := if n ∈ g.finishPoints then g.finishPoints
            else g.finishPoints ++ [n],
          edges := g.edges ++ [(n, END)] } := by
        simpa using h.symm
      subst hg'
      intro e he
      rcases List.mem_append.1 he with he | he
      · exact hinv e he
      · have he' : e = (n, END) := by simpa using he
        subst he'
        refine ⟨Or.inr (Or.inr ?_), Or.inr (Or.inl rfl)⟩
        rcases hln : lookupA n g.nodes with _ | v
        · exact absurd (by rw [hln]; rfl) hn
        · rfl

lemma buildFrom_edges_ok :
    ∀ (ops : List BuildOp) (g g' : WorkflowGraph),
      (∀ e ∈ g.edges, regOrSentinel g.nodes e.1 ∧ regOrSentinel g.nodes e.2) →
      buildFrom g ops = Except.ok g' →
      ∀ e ∈ g'.edges, regOrSentinel g'.nodes e.1 ∧ regOrSentinel g'.nodes e.2 := by
  intro ops
  induction ops with
  | nil =>
    intro g g' hinv h
    have hgg : g = g' := by simpa [buildFrom] using h
    exact hgg ▸ hinv
  | cons op rest ih =>
    intro g g' hinv h
    rw [buildFrom] at h
    rcases hop : applyOp g op with e | g1
    · rw [hop] at h
      simp at h
    · rw [hop] at h
      exact ih g1 g' (applyOp_edges_ok hinv hop) h

/-- Claim C9 amended: *edge* endpoints are validated synchronously — every
graph assembled through the builder API has only sentinel-or-registered edge
endpoints, `addEdge` rejects an unregistered non-sentinel endpoint with
`InvalidEdge` (source first, then destination) and otherwise appends the
edge.  Branch endpoints, by contrast, are never validated at construction or
validation time; a dangling branch target fails only when a run reaches it
(see the counterexample). -/
theorem c9_edge_endpoints_validated (ops : List BuildOp) (g : WorkflowGraph)
    (hok : buildGraph ops = Except.ok g) :
    (∀ e ∈ g.edges, regOrSentinel g.nodes e.1 ∧ regOrSentinel g.nodes e.2) ∧
    (∀ (g0 : WorkflowGraph) (f t : String), ¬ regOrSentinel g0.nodes f →
      addEdge g0 f t = Except.error (WGErr.invalidEdge f)) ∧
    (∀ (g0 : WorkflowGraph) (f t : String), regOrSentinel g0.nodes f →
      ¬ regOrSentinel g0.nodes t →
      addEdge g0 f t = Except.error (WGErr.invalidEdge t)) ∧
    (∀ (g0 : WorkflowGraph) (f t : String), regOrSentinel g0.nodes f →
      regOrSentinel g0.nodes t →
      addEdge g0 f t = Except.ok { g0 with edges := g0.edges ++ [(f, t)] }) := by
  have hcond : ∀ (g0 : WorkflowGraph) (n : String),
      (¬(n = START ∨ n = END) ∧ (lookupA n g0.nodes).isNone = true)
        ↔ ¬ regOrSentinel g0.nodes n := by
    intro g0 n
    unfold regOrSentinel
    rcases hl : lookupA n g0.nodes with _ | v <;> simp [hl]
  refine ⟨buildFrom_edges_ok ops emptyWG g (by simp [emptyWG]) hok, ?_, ?_, ?_⟩
  · intro g0 f t hf
    unfold addEdge
    rw [if_pos ((hcond g0 f).mpr hf)]
  · intro g0 f t hf ht
    unfold addEdge
    rw [if_neg (fun hc => ((hcond g0 f).mp hc) hf),
      if_pos ((hcond g0 t).mpr ht)]
  · intro g0 f t hf ht
    unfold addEdge
    rw [if_neg (fun hc => ((hcond g0 f).mp hc) hf),
      if_neg (fun hc => ((hcond g0 t).mp hc) ht)]

/-- Witness for the amended C9: the graph built by `c9Ops` has only
sentinel-or-registered edge endpoints, and `addEdge` on it rejects the
unregistered endpoint `nope` synchronously with `InvalidEdge`. -/
theorem c9_edge_endpoints_validated_witness :
    (∀ e ∈ c9WG.edges, regOrSentinel c9WG.nodes e.1 ∧ regOrSentinel c9WG.nodes e.2) ∧
    addEdge c9WG "nope" "a" = Except.error (WGErr.invalidEdge "nope") := by
  obtain ⟨h1, h2, h3, h4⟩ := c9_edge_endpoints_validated c9Ops c9WG rfl
  exact ⟨h1, h2 c9WG "nope" "a" (by decide)⟩

end WorkflowGraphJs
